import Mathlib

/-!
Verification of the line-extraction and contextual-metadata-resolution
pipeline of the fr24432 TEI publishing scripts.

The embedding models XML elements as ordered trees (`Elem`).  An element
carries a unique node id `eid` standing for Python object identity, the
namespace URI and the local tag name (ElementTree stores the qualified tag
"{uri}local"; the scripts split off the local part with
`tag.rsplit('}', 1)[-1]`, which the `ns`/`tag` split models exactly),
an attribute list, the text before the first child (`text`, with `""`
standing for Python `None`, which the scripts treat identically via
truthiness), the child list and the tail text after the element.

String operations are re-implemented over `String.data` character lists so
that every definition evaluates inside the kernel.
-/

/-- The TEI namespace URI, `TEI_NS` in `helpers.py`. -/
def TEIuri : String := "http://www.tei-c.org/ns/1.0"

/-- Python's `a or b` on strings: `None`/`""` are falsy, anything else wins. -/
def pyOr (a b : String) : String := if a = "" then b else a

/-- Maximal whitespace-free runs of a character list, in order.  Used to model
`re.sub(r"\s+", " ", text).strip()`. -/
def wordsRev (cs : List Char) : List (List Char) :=
  let st := cs.foldl
    (fun (st : List (List Char) × List Char) c =>
      if c.isWhitespace then (if st.2 = [] then st else (st.2.reverse :: st.1, []))
      else (st.1, c :: st.2)) ([], [])
  (if st.2 = [] then st.1 else st.2.reverse :: st.1).reverse

/-- Model of `re.sub(r"\s+", " ", s).strip()`: collapse whitespace runs to single
spaces and trim the ends. -/
def normWS (s : String) : String :=
  String.mk (List.intercalate [' '] (wordsRev s.data))

/-- Python `s.strip()`. -/
def pyStrip (s : String) : String :=
  String.mk (((s.data.dropWhile Char.isWhitespace).reverse.dropWhile Char.isWhitespace).reverse)

/-- Python `s.lower()` (ASCII case folding, enough for the metadata states). -/
def pyLower (s : String) : String := String.mk (s.data.map Char.toLower)

/-- An XML element: node identity, namespace URI, local tag name, attributes,
leading text, children, tail text.  The attribute key `"xml:id"` stands for
the expanded name `{http://www.w3.org/XML/1998/namespace}id`. -/
inductive Elem where
  | mk (eid : Nat) (ns : String) (tag : String) (attrs : List (String × String))
       (text : String) (children : List Elem) (tail : String)

def Elem.eid : Elem → Nat
  | .mk i _ _ _ _ _ _ => i

def Elem.ns : Elem → String
  | .mk _ n _ _ _ _ _ => n

def Elem.tag : Elem → String
  | .mk _ _ t _ _ _ _ => t

def Elem.attrs : Elem → List (String × String)
  | .mk _ _ _ a _ _ _ => a

def Elem.text : Elem → String
  | .mk _ _ _ _ x _ _ => x

def Elem.children : Elem → List Elem
  | .mk _ _ _ _ _ cs _ => cs

def Elem.tail : Elem → String
  | .mk _ _ _ _ _ _ tl => tl

/-- Model of `e.get(k)`: attribute lookup, `none` when absent. -/
def getAttr (e : Elem) (k : String) : Option String :=
  (e.attrs.find? (fun p => p.1 == k)).map (·.2)

/-- Attribute lookup collapsing `None` to `""` (the scripts only ever
combine `get` results with `or`, which identifies the two). -/
def attrD (e : Elem) (k : String) : String := (getAttr e k).getD ""

/-- A marker's value as the scans compute it with an empty fallback:
`e.get('n') or e.get(xml_id) or ""`. -/
def effAttr (e : Elem) : String := pyOr (attrD e "n") (pyOr (attrD e "xml:id") "")

mutual
/-- Model of `list(e.iter())`: the element followed by its descendants, preorder. -/
def Elem.nodes : Elem → List Elem
  | .mk i n t a x cs tl => .mk i n t a x cs tl :: nodesL cs
/-- Preorder traversal of a forest. -/
def nodesL : List Elem → List Elem
  | [] => []
  | c :: cs => c.nodes ++ nodesL cs
end

mutual
/-- Preorder traversal carrying, for every node, its chain of ancestors
inside the traversed subtree, nearest first.  This is the information
content of the `parent_map = {c: p for p in doc_nodes for c in p}` built in
`extract_lines_from_xml`. -/
def ancOf : Elem → List Elem → List (Elem × List Elem)
  | .mk i n t a x cs tl, anc =>
    (.mk i n t a x cs tl, anc) :: ancOfL cs (.mk i n t a x cs tl :: anc)
def ancOfL : List Elem → List Elem → List (Elem × List Elem)
  | [], _ => []
  | c :: cs, anc => ancOf c anc ++ ancOfL cs anc
end

mutual
/-- Model of `get_text_with_markup` from `helpers.py`: recursive rendering with
editorial markup.  `<ex>` wraps in `<em>…</em>`, `<add>`/`<supplied>` in
square brackets, `<del>`/`<surplus>` in parentheses, `<gap>` is replaced by
the fixed placeholder `" [...]"` (text and children discarded), any other
tag concatenates text, rendered children and tail.  Appending the tail
unconditionally is equivalent to the script's `if node.tail:` guard because
an absent tail is the empty string. -/
def get_text_with_markup : Elem → String
  | .mk _ _ t _ x cs tl =>
    if t == "ex" then "<em>" ++ x ++ renderChildren cs ++ "</em>" ++ tl
    else if t == "add" || t == "supplied" then "[" ++ x ++ renderChildren cs ++ "]" ++ tl
    else if t == "del" || t == "surplus" then "(" ++ x ++ renderChildren cs ++ ")" ++ tl
    else if t == "gap" then " [...]" ++ tl
    else x ++ renderChildren cs ++ tl
/-- Model of `"".join(get_text_with_markup(c) for c in node)`. -/
def renderChildren : List Elem → String
  | [] => ""
  | c :: cs => get_text_with_markup c ++ renderChildren cs
end

/-- The grouping-container tags, `GROUP_TAGS = {"lg", "p", "sp"}`. -/
def isGroupTag (t : String) : Bool := t == "lg" || t == "p" || t == "sp"

/-- Model of `find_group_for_node` from `helpers.py`: walk the parent chain (inside
the scoped subtree) and return the nearest ancestor whose local tag is a
grouping tag. -/
def find_group_for_node (table : List (Elem × List Elem)) (node : Elem) : Option Elem :=
  match table.find? (fun pr => pr.1.eid == node.eid) with
  | none => none
  | some pr => pr.2.find? (fun p => isGroupTag p.tag)

/-- Model of `doc_nodes.index(l)`: position of the first node with the given
identity, `none` modelling the `ValueError` branch. -/
def idxOfEid : List Elem → Nat → Option Nat
  | [], _ => none
  | e :: es, i => if e.eid = i then some 0 else (idxOfEid es i).map (· + 1)

/-- The folio backward scan of `extract_lines_from_xml` (helpers.py
lines 148–159): find the line's index, scan strictly backward for the first
`pb`-tagged node, and resolve `prev.get('n') or prev.get(xml_id) or seed`;
the seed is returned when the line is missing from the node list or no
`pb` precedes it. -/
def folio_for (ds : List Elem) (l : Elem) (seed : String) : String :=
  match idxOfEid ds l.eid with
  | none => seed
  | some i =>
    match ((ds.take i).reverse).find? (fun e => e.tag == "pb") with
    | none => seed
    | some pb => pyOr (attrD pb "n") (pyOr (attrD pb "xml:id") seed)

/-- A column marker: `cb`-tagged, or `milestone`-tagged with
`unit="column"`. -/
def isColMarker (e : Elem) : Bool :=
  e.tag == "cb" || (e.tag == "milestone" && attrD e "unit" == "column")

/-- The column backward scan (helpers.py lines 161–175), analogous to
`folio_for`. -/
def col_for (ds : List Elem) (l : Elem) (seed : String) : String :=
  match idxOfEid ds l.eid with
  | none => seed
  | some i =>
    match ((ds.take i).reverse).find? isColMarker with
    | none => seed
    | some cb => pyOr (attrD cb "n") (pyOr (attrD cb "xml:id") seed)

/-- Strip one leading reference sigil:
`if speaker.startswith('#'): speaker = speaker[1:]`. -/
def stripRefSigil (w : String) : String :=
  match w.data with
  | [] => w
  | ch :: rest => if ch = '#' then String.mk rest else w

/-- The speaker backward scan (helpers.py lines 177–192): first preceding
`sp`-tagged node, its `who` attribute with `''` default, one leading `#`
stripped. -/
def speaker_for (ds : List Elem) (l : Elem) : String :=
  match idxOfEid ds l.eid with
  | none => ""
  | some i =>
    match ((ds.take i).reverse).find? (fun e => e.tag == "sp") with
    | none => ""
    | some sp => stripRefSigil (attrD sp "who")

/-- Position of a key in the discovery list (total; callers guard with
`posIn?`). -/
def posIn : List Nat → Nat → Nat
  | [], _ => 0
  | g :: gs, x => if g = x then 0 else posIn gs x + 1

/-- Lookup of a key in the discovery list, `ancestor_group_map` modelled as
the list of ancestor ids in first-discovery order (the id assigned to the
ancestor at position `k` is `k + 1`, matching the `next_group_id` counter
that starts at 0 and is incremented before each assignment). -/
def posIn? : List Nat → Nat → Option Nat
  | [], _ => none
  | g :: gs, x => if g = x then some 0 else (posIn? gs x).map (· + 1)

/-- One step of group-id assignment: look up the line's grouping ancestor,
register it with the next id if unseen, and render the id (`""` for
ungrouped lines, `str(lg_num)` otherwise). -/
def lg_step (table : List (Elem × List Elem)) (disc : List Nat) (l : Elem) :
    String × List Nat :=
  match find_group_for_node table l with
  | none => ("", disc)
  | some a =>
    match posIn? disc a.eid with
    | some k => (toString (k + 1), disc)
    | none => (toString (disc.length + 1), disc ++ [a.eid])

/-- One line record of `extract_lines_from_xml`. -/
structure LineRec where
  line_no : Nat
  text : String
  lg : String
  l_id : String
  folio : String
  col : String
  speaker : String
deriving DecidableEq

/-- The per-line loop of `extract_lines_from_xml`: threads the line counter
and the group-discovery state through the lines in document order. -/
def extract_loop (ds : List Elem) (table : List (Elem × List Elem))
    (seedF seedC : String) : List Elem → Nat → List Nat → List LineRec
  | [], _, _ => []
  | l :: rest, counter, disc =>
    let gd := lg_step table disc l
    { line_no := counter + 1
      text := normWS (get_text_with_markup l)
      lg := gd.1
      l_id := pyOr (attrD l "xml:id") (pyOr (attrD l "id") "")
      folio := folio_for ds l seedF
      col := col_for ds l seedC
      speaker := speaker_for ds l } :: extract_loop ds table seedF seedC rest (counter + 1) gd.2

/-- Model of `root.find('.//tei:div', ns)`: first TEI `div` among the proper
descendants (document order), else the root itself; the traversal of
`extract_lines_from_xml` is limited to this element's subtree. -/
def scopeElem (root : Elem) : Elem :=
  match (nodesL root.children).find? (fun e => e.ns == TEIuri && e.tag == "div") with
  | some d => d
  | none => root

/-- The node-order index `doc_nodes`: the flattened node-order index of the scoped subtree. -/
def docNodesOf (root : Elem) : List Elem := (scopeElem root).nodes

/-- The ancestor table of the scoped subtree (the `parent_map`). -/
def ancTable (root : Elem) : List (Elem × List Elem) := ancOf (scopeElem root) []

/-- Model of `root.findall(".//tei:l", ns)`: all TEI `l` proper descendants of the
fragment root, in document order. -/
def linesOf (root : Elem) : List Elem :=
  (nodesL root.children).filter (fun e => e.ns == TEIuri && e.tag == "l")

/-- Model of `extract_lines_from_xml` from `helpers.py` (the string parsing
`ET.fromstring` is the external XML collaborator; the model starts from the
parsed fragment root). -/
def extract_lines_from_xml (root : Elem) (initial_folio initial_col : String) :
    List LineRec :=
  extract_loop (docNodesOf root) (ancTable root) initial_folio initial_col
    (linesOf root) 0 []

/-- Numeric value of a digit run (the `int(...)` of the matched group). -/
def digitsVal (cs : List Char) : Nat :=
  cs.foldl (fun n c => 10 * n + (c.toNat - 48)) 0

/-- The leading digit run of a string, what `re.match(r'(\d+)', s)`
captures (`re.match` anchors at the start of the string). -/
def leadingDigits (s : String) : List Char := s.data.takeWhile Char.isDigit

/-- Model of `simple_folio_sort_key` from `helpers.py`: the integer value of the
leading digit run, `999999` for an empty input or when the input does not
start with a digit. -/
def simple_folio_sort_key (fol_range : String) : Nat :=
  if fol_range = "" then 999999
  else if leadingDigits fol_range = [] then 999999
  else digitsVal (leadingDigits fol_range)

/-- Python `row.get(k, d)` on a row dictionary. -/
def lookupD (row : List (String × String)) (k d : String) : String :=
  match row.find? (fun p => p.1 == k) with
  | some p => p.2
  | none => d

/-- Python dict assignment `m[k] = v`: replace in place if the key exists,
append otherwise. -/
def dinsert {α : Type} (m : List (String × α)) (k : String) (v : α) :
    List (String × α) :=
  if m.any (fun p => p.1 == k) then m.map (fun p => if p.1 == k then (k, v) else p)
  else m ++ [(k, v)]

/-- Model of `load_metadata` from `helpers.py`, modelled from the point where the
CSV reader has produced the (stripped) header names and the row
dictionaries; file I/O and the `sys.exit(1)` calls are the external layer,
with `Except.error` standing for the fatal exit.  A row whose stripped
`id` is empty is skipped (the script prints a warning); otherwise the row,
with its `state` normalised, is stored under the stripped id. -/
def md_step (metadata : List (String × List (String × String)))
    (row : List (String × String)) : List (String × List (String × String)) :=
  let div_id := pyStrip (lookupD row "id" "")
  if div_id ≠ "" then
    dinsert metadata div_id
      (dinsert row "state" (pyLower (pyStrip (lookupD row "state" "incomplete"))))
  else metadata

/-- Fatal check and row loop of `load_metadata`. -/
def load_metadata (fieldnames : List String) (rows : List (List (String × String))) :
    Except Unit (List (String × List (String × String))) :=
  let fns := fieldnames.map pyStrip
  if fns.contains "id" then Except.ok (rows.foldl md_step [])
  else Except.error ()

/-- The keys present in a loaded metadata mapping (empty on fatal exit). -/
def mdKeys : Except Unit (List (String × List (String × String))) → List String
  | .error _ => []
  | .ok m => m.map Prod.fst

/-- The stripped, non-empty identifiers of the rows, in order. -/
def nonemptyIds (rows : List (List (String × String))) : List String :=
  rows.filterMap (fun row =>
    let i := pyStrip (lookupD row "id" "")
    if i = "" then none else some i)

/-- A TEI-namespaced `pb` (the seed-extraction scans compare the full
qualified tag, unlike the local-name scans inside a fragment). -/
def isTeiPb (e : Elem) : Bool := e.ns == TEIuri && e.tag == "pb"

/-- A TEI-namespaced column marker: `cb`, or `milestone` with
`unit="column"`. -/
def isTeiColMarker (e : Elem) : Bool :=
  (e.ns == TEIuri && e.tag == "cb")
    || (e.ns == TEIuri && e.tag == "milestone" && attrD e "unit" == "column")

/-- Position of the first node satisfying the predicate (the script finds
the element with `source_root.iter()` and then takes `all_nodes.index` of
it; both walk the same preorder, so the position is that of the first
match). -/
def idxWhere : List Elem → (Elem → Bool) → Option Nat
  | [], _ => none
  | e :: es, p => if p e then some 0 else (idxWhere es p).map (· + 1)

/-- The joint backward scan of `get_folio_and_col_at_div`
(extract_divs.py lines 57–69 / helpers.py lines 413–425): one pass over the
preceding nodes, updating the folio at a `pb` while the folio is still
falsy and the column at a column marker while the column is still falsy,
breaking as soon as both are truthy.  The per-node folio update
(`if prev is a pb and not folio: …`) is `jf`, the column update `jc`. -/
def jf (e : Elem) (folio : String) : String :=
  if isTeiPb e && folio == "" then effAttr e else folio

/-- The per-node column update of the joint scan (`if not col: …`). -/
def jc (e : Elem) (col : String) : String :=
  if col == "" then
    (if e.ns == TEIuri && e.tag == "cb" then effAttr e
     else if e.ns == TEIuri && e.tag == "milestone" && attrD e "unit" == "column" then
       effAttr e
     else col)
  else col

def joint_scan : List Elem → String → String → String × String
  | [], folio, col => (folio, col)
  | e :: rest, folio, col =>
    if jf e folio != "" && jc e col != "" then (jf e folio, jc e col)
    else joint_scan rest (jf e folio) (jc e col)

/-- Model of `get_folio_and_col_at_div`: locate the target `div` by its `xml:id`
(the caller extracts `div_id` from the serialised div with a regex), then
run the joint backward scan over the nodes preceding it; `("", "")` when
the div is not found. -/
def get_folio_and_col_at_div (div_id : String) (source_root : Elem) : String × String :=
  match idxWhere (Elem.nodes source_root)
      (fun e => e.ns == TEIuri && e.tag == "div" && getAttr e "xml:id" == some div_id) with
  | none => ("", "")
  | some i => joint_scan (((Elem.nodes source_root).take i).reverse) "" ""

/-- The first preceding marker of the given kind with a truthy resolved
value, and that value; `""` when there is none. -/
def indFirst (p : Elem → Bool) (prevs : List Elem) : String :=
  match prevs.find? (fun e => p e && !(effAttr e == "")) with
  | some e => effAttr e
  | none => ""

/-- Modelled from the spec (claim wording): two independent backward
scans, each stopping at its own *first* marker of its kind, whatever that
marker's value. -/
def two_independent_scans (div_id : String) (source_root : Elem) : String × String :=
  match idxWhere (Elem.nodes source_root)
      (fun e => e.ns == TEIuri && e.tag == "div" && getAttr e "xml:id" == some div_id) with
  | none => ("", "")
  | some i =>
    let prevs := ((Elem.nodes source_root).take i).reverse
    ((match prevs.find? isTeiPb with
      | some e => effAttr e
      | none => ""),
     (match prevs.find? isTeiColMarker with
      | some e => effAttr e
      | none => ""))

/-- Two independent backward scans that pass over markers whose resolved
value is empty, each stopping at its first marker with a truthy value. -/
def independent_nonempty_scans (div_id : String) (source_root : Elem) : String × String :=
  match idxWhere (Elem.nodes source_root)
      (fun e => e.ns == TEIuri && e.tag == "div" && getAttr e "xml:id" == some div_id) with
  | none => ("", "")
  | some i =>
    let prevs := ((Elem.nodes source_root).take i).reverse
    (indFirst isTeiPb prevs, indFirst isTeiColMarker prevs)

/-! ### Concrete fragments used as witnesses and counterexamples -/

/-- The element `<l xml:id="l1">Foo</l>` of the end-to-end scenario. -/
def fragL1 : Elem := .mk 3 TEIuri "l" [("xml:id", "l1")] "Foo" [] ""

/-- The element `<l xml:id="l2">Bar</l>` of the end-to-end scenario. -/
def fragL2 : Elem := .mk 4 TEIuri "l" [("xml:id", "l2")] "Bar" [] ""

/-- The fragment `<div><pb n="1r"/><lg><l xml:id="l1">Foo</l>
<l xml:id="l2">Bar</l></lg></div>` in the TEI namespace. -/
def frag1 : Elem :=
  .mk 0 TEIuri "div" [] ""
    [.mk 1 TEIuri "pb" [("n", "1r")] "" [] "",
     .mk 2 TEIuri "lg" [] "" [fragL1, fragL2] ""] ""

/-- A fragment with no page break at all: `<div><lg><l>x</l></lg></div>`. -/
def frag2L : Elem := .mk 2 TEIuri "l" [] "x" [] ""

def frag2 : Elem :=
  .mk 0 TEIuri "div" [] "" [.mk 1 TEIuri "lg" [] "" [frag2L] ""] ""

/-- A fragment with `<pb n="12"/>` followed by a line. -/
def frag3Pb : Elem := .mk 1 TEIuri "pb" [("n", "12")] "" [] ""

def frag3L : Elem := .mk 2 TEIuri "l" [] "x" [] ""

def frag3 : Elem := .mk 0 TEIuri "div" [] "" [frag3Pb, frag3L] ""

/-- A fragment whose page break carries neither `n` nor `xml:id`:
`<div><pb/><l>x</l></div>`. -/
def frag4Pb : Elem := .mk 1 TEIuri "pb" [] "" [] ""

def frag4L : Elem := .mk 2 TEIuri "l" [] "x" [] ""

def frag4 : Elem := .mk 0 TEIuri "div" [] "" [frag4Pb, frag4L] ""

/-- A fragment with a speech container: `<div><sp who="#A"><l>x</l></sp></div>`. -/
def frag5Sp : Elem :=
  .mk 1 TEIuri "sp" [("who", "#A")] "" [.mk 2 TEIuri "l" [] "x" [] ""] ""

def frag5L : Elem := .mk 2 TEIuri "l" [] "x" [] ""

def frag5 : Elem := .mk 0 TEIuri "div" [] "" [frag5Sp] ""

/-- A source document whose target div is preceded by an attribute-less
`pb` (nearest) and a `pb n="5"` (further back):
`<TEI><pb n="5"/><pb/><div xml:id="d1"/></TEI>`. -/
def cex10 : Elem :=
  .mk 0 TEIuri "TEI" [] ""
    [.mk 1 TEIuri "pb" [("n", "5")] "" [] "",
     .mk 2 TEIuri "pb" [] "" [] "",
     .mk 3 TEIuri "div" [("xml:id", "d1")] "" [] ""] ""

/-! ### General lemmas about the embedded operations -/

theorem mem_of_getElem?_eq_some {α : Type} {l : List α} {n : Nat} {a : α}
    (h : l[n]? = some a) : a ∈ l := by
  obtain ⟨h1, h2⟩ := List.getElem?_eq_some.mp h
  exact h2 ▸ List.getElem_mem h1

/-- Backward scans "nearest preceding wins": if position `j` holds a match
and nothing matches strictly between `j` and the scan origin `i`, the
backward scan over the first `i` nodes finds exactly the node at `j`. -/
theorem find?_reverse_take (p : Elem → Bool) (ds : List Elem) (i j : Nat) (x : Elem)
    (hji : j < i) (hj : ds[j]? = some x) (hpx : p x = true)
    (hafter : ∀ e ∈ (ds.take i).drop (j + 1), p e = false) :
    ((ds.take i).reverse).find? p = some x := by
  conv_lhs => rw [← List.take_append_drop (j + 1) (ds.take i)]
  rw [List.reverse_append, List.find?_append]
  have h1 : List.find? p (((ds.take i).drop (j + 1)).reverse) = none := by
    rw [List.find?_eq_none]
    intro e he
    rw [List.mem_reverse] at he
    simp [hafter e he]
  have h2 : (ds.take i).take (j + 1) = ds.take (j + 1) := by
    rw [List.take_take]
    congr 1
    omega
  have h3 : ds.take (j + 1) = ds.take j ++ [x] := by
    rw [List.take_succ, hj]
    rfl
  rw [h1, Option.none_or, h2, h3, List.reverse_append, List.reverse_singleton]
  exact List.find?_cons_of_pos _ hpx

theorem toDigitsCore_head_ne_zero :
    ∀ (fuel n : Nat) (ds : List Char), 1 ≤ n → n < fuel →
      ∃ c cs, Nat.toDigitsCore 10 fuel n ds = c :: cs ∧ c ≠ '0' := by
  intro fuel
  induction fuel with
  | zero => intro n ds h1 h2; omega
  | succ f ih =>
    intro n ds h1 h2
    rw [Nat.toDigitsCore]
    by_cases h : n / 10 = 0
    · simp only [h, if_pos]
      refine ⟨(n % 10).digitChar, ds, rfl, ?_⟩
      have hn : n < 10 := by omega
      have hm : n % 10 = n := Nat.mod_eq_of_lt hn
      rw [hm]
      interval_cases n <;> decide
    · simp only [h, if_neg]
      exact ih (n / 10) _ (by omega) (by omega)

/-- The decimal rendering of a positive group id is never the digit zero. -/
theorem toString_succ_ne_zero (k : Nat) : toString (k + 1) ≠ "0" := by
  intro h
  have h2 : (Nat.toDigits 10 (k + 1)).asString = "0" := h
  rw [List.asString_eq] at h2
  have h3 : ("0" : String).toList = ['0'] := rfl
  rw [h3] at h2
  rw [Nat.toDigits] at h2
  obtain ⟨c, cs, he, hc⟩ := toDigitsCore_head_ne_zero (k + 2) (k + 1) [] (by omega) (by omega)
  rw [he] at h2
  exact hc (by injection h2)

/-- The running group-discovery state after a list of lines. -/
def discAfter (table : List (Elem × List Elem)) (disc : List Nat) (ls : List Elem) :
    List Nat :=
  ls.foldl (fun d l => (lg_step table d l).2) disc

theorem extract_loop_length (ds : List Elem) (table : List (Elem × List Elem))
    (f c : String) : ∀ (ls : List Elem) (counter : Nat) (disc : List Nat),
    (extract_loop ds table f c ls counter disc).length = ls.length := by
  intro ls
  induction ls with
  | nil => intro counter disc; rfl
  | cons hd tl ih => intro counter disc; simp [extract_loop, ih]

/-- Closed form of the record emitted for the line at position `i`. -/
theorem extract_loop_getElem? (ds : List Elem) (table : List (Elem × List Elem))
    (f c : String) : ∀ (ls : List Elem) (counter : Nat) (disc : List Nat) (i : Nat) (l : Elem),
    ls[i]? = some l →
    (extract_loop ds table f c ls counter disc)[i]? = some
      { line_no := counter + i + 1,
        text := normWS (get_text_with_markup l),
        lg := (lg_step table (discAfter table disc (ls.take i)) l).1,
        l_id := pyOr (attrD l "xml:id") (pyOr (attrD l "id") ""),
        folio := folio_for ds l f,
        col := col_for ds l c,
        speaker := speaker_for ds l } := by
  intro ls
  induction ls with
  | nil => intro counter disc i l h; simp at h
  | cons hd tl ih =>
    intro counter disc i l h
    cases i with
    | zero =>
      simp only [List.getElem?_cons_zero, Option.some.injEq] at h
      subst h
      simp [extract_loop, discAfter]
    | succ n =>
      simp only [List.getElem?_cons_succ] at h
      have hstep : counter + (n + 1) + 1 = (counter + 1) + n + 1 := by omega
      rw [hstep]
      have hdisc : discAfter table disc (List.take (n + 1) (hd :: tl)) =
          discAfter table ((lg_step table disc hd).2) (List.take n tl) := rfl
      rw [hdisc, extract_loop]
      simp only [List.getElem?_cons_succ]
      exact ih (counter + 1) ((lg_step table disc hd).2) n l h

/-! ### Claim theorems -/

/-- C1: running line extraction on the fragment
`<div><pb n="1r"/><lg><l xml:id="l1">Foo</l><l xml:id="l2">Bar</l></lg></div>`
with seed folio `""` and seed column `""` produces exactly the two Line
Records `{1, "Foo", "1", "l1", "1r", "", ""}` and
`{2, "Bar", "1", "l2", "1r", "", ""}`. -/
theorem extract_lines_end_to_end_scenario :
    extract_lines_from_xml frag1 "" "" =
      [{ line_no := 1, text := "Foo", lg := "1", l_id := "l1",
         folio := "1r", col := "", speaker := "" },
       { line_no := 2, text := "Bar", lg := "1", l_id := "l2",
         folio := "1r", col := "", speaker := "" }] := rfl

/-- C6: the markup renderer maps any gap-tagged element (with no trailing
tail text) to exactly the ellipsis placeholder `" [...]"`, whatever its
text and children; and it maps an expansion-tagged element containing the
text `"abc"` (no children, no tail) to that text wrapped in emphasis
markers, with no surrounding whitespace change. -/
theorem markup_gap_and_expansion :
    (∀ e : Elem, e.tag = "gap" → e.tail = "" → get_text_with_markup e = " [...]")
    ∧ (∀ e : Elem, e.tag = "ex" → e.text = "abc" → e.children = [] → e.tail = "" →
        get_text_with_markup e = "<em>abc</em>") := by
  constructor
  · rintro ⟨i, n, t, a, x, cs, tl⟩ ht htl
    simp only [Elem.tag] at ht
    simp only [Elem.tail] at htl
    subst ht htl
    rfl
  · rintro ⟨i, n, t, a, x, cs, tl⟩ ht hx hcs htl
    simp only [Elem.tag] at ht
    simp only [Elem.text] at hx
    simp only [Elem.children] at hcs
    simp only [Elem.tail] at htl
    subst ht hx hcs htl
    rfl

theorem markup_gap_and_expansion_witness :
    get_text_with_markup (.mk 9 TEIuri "gap" [] "zz" [fragL1] "") = " [...]"
    ∧ get_text_with_markup (.mk 9 TEIuri "ex" [] "abc" [] "") = "<em>abc</em>" :=
  ⟨markup_gap_and_expansion.1 (.mk 9 TEIuri "gap" [] "zz" [fragL1] "") rfl rfl,
   markup_gap_and_expansion.2 (.mk 9 TEIuri "ex" [] "abc" [] "") rfl rfl rfl rfl⟩

/-- C8 counterexample: the claim says the sort key of a folio-range string
is the integer value of the first integer substring in the field, so
`"f3"` (whose first integer substring is `3`) would get key `3`; the code
anchors the match at the start of the string (`re.match`), so `"f3"` gets
the no-number sentinel `999999` instead. -/
theorem sort_key_first_substring_counterexample :
    simple_folio_sort_key "f3" = 999999 ∧ simple_folio_sort_key "f3" ≠ 3 :=
  ⟨rfl, by decide⟩

/-- C8 amended: the index sort key of a folio-range string is the integer
value of its *leading* digit run, so that `"3"` sorts before `"12-15"`;
a folio-range that is empty or does not start with a digit receives the
sentinel key `999999` and therefore sorts after every numbered section. -/
theorem sort_key_leading_digits :
    (∀ s : String, leadingDigits s ≠ [] →
        simple_folio_sort_key s = digitsVal (leadingDigits s))
    ∧ (∀ s : String, leadingDigits s = [] → simple_folio_sort_key s = 999999)
    ∧ simple_folio_sort_key "3" < simple_folio_sort_key "12-15" := by
  refine ⟨?_, ?_, by decide⟩
  · intro s h
    by_cases hs : s = ""
    · subst hs
      exact absurd rfl h
    · simp [simple_folio_sort_key, hs, h]
  · intro s h
    by_cases hs : s = ""
    · subst hs
      rfl
    · simp [simple_folio_sort_key, hs, h]

theorem sort_key_leading_digits_witness :
    simple_folio_sort_key "12-15" = digitsVal (leadingDigits "12-15")
    ∧ simple_folio_sort_key "fol" = 999999 :=
  ⟨sort_key_leading_digits.1 "12-15" (by decide),
   sort_key_leading_digits.2.1 "fol" rfl⟩

/-- C2: line extraction emits exactly one record per line-tagged element of
the fragment, and the `line_no` fields are the contiguous sequence
`1, 2, …, N` in document order. -/
theorem extract_lines_count_and_numbering (root : Elem) (f c : String) :
    (extract_lines_from_xml root f c).length = (linesOf root).length
    ∧ ∀ (i : Nat) (r : LineRec),
        (extract_lines_from_xml root f c)[i]? = some r → r.line_no = i + 1 := by
  constructor
  · exact extract_loop_length _ _ _ _ _ _ _
  · intro i r hr
    have hi : i < (linesOf root).length := by
      obtain ⟨h, _⟩ := List.getElem?_eq_some.mp hr
      have hlen := extract_loop_length (docNodesOf root) (ancTable root) f c (linesOf root) 0 []
      simp only [extract_lines_from_xml] at h
      omega
    have hl : (linesOf root)[i]? = some ((linesOf root)[i]) := List.getElem?_eq_getElem hi
    have hrec := extract_loop_getElem? (docNodesOf root) (ancTable root) f c
      (linesOf root) 0 [] i _ hl
    have h2 := hr.symm.trans hrec
    have h3 := Option.some_inj.mp h2
    rw [h3]
    show 0 + i + 1 = i + 1
    omega

theorem extract_lines_count_and_numbering_witness :
    (extract_lines_from_xml frag1 "" "").length = (linesOf frag1).length
    ∧ ({ line_no := 2, text := "Bar", lg := "1", l_id := "l2",
         folio := "1r", col := "", speaker := "" } : LineRec).line_no = 1 + 1 :=
  ⟨(extract_lines_count_and_numbering frag1 "" "").1,
   (extract_lines_count_and_numbering frag1 "" "").2 1 _ rfl⟩

/-- C3: in a fragment whose node-order index has a `pb` of effective value
`"12"` at position `j` with no later `pb`, every line at a position after
`j` resolves to folio `"12"` whatever the seed; and in a fragment with no
`pb` at all, every line resolves to the seed folio. -/
theorem folio_resolution_pb_and_seed :
    (∀ (root : Elem) (seed : String) (j i : Nat) (pb l : Elem),
        (docNodesOf root)[j]? = some pb → pb.tag = "pb" → effAttr pb = "12" →
        (∀ e ∈ (docNodesOf root).drop (j + 1), e.tag ≠ "pb") →
        idxOfEid (docNodesOf root) l.eid = some i → j < i →
        folio_for (docNodesOf root) l seed = "12")
    ∧ (∀ (root : Elem) (seed : String) (l : Elem),
        (∀ e ∈ docNodesOf root, e.tag ≠ "pb") →
        folio_for (docNodesOf root) l seed = seed) := by
  constructor
  · intro root seed j i pb l hj hpb heff hafter hidx hji
    have hfind : ((docNodesOf root).take i).reverse.find? (fun e => e.tag == "pb")
        = some pb := by
      apply find?_reverse_take _ _ i j pb hji hj (by simp [hpb])
      intro e he
      have hmem : e ∈ (docNodesOf root).drop (j + 1) := by
        rw [List.drop_take] at he
        exact List.take_subset _ _ he
      simp [hafter e hmem]
    simp only [folio_for, hidx, hfind]
    simp only [effAttr, pyOr] at heff ⊢
    by_cases hn : attrD pb "n" = ""
    · by_cases hid : attrD pb "xml:id" = ""
      · simp [hn, hid] at heff
      · simp [hn, hid] at heff ⊢
        exact heff
    · simp [hn] at heff ⊢
      exact heff
  · intro root seed l hnone
    cases hidx : idxOfEid (docNodesOf root) l.eid with
    | none => simp [folio_for, hidx]
    | some i =>
      have hfind : ((docNodesOf root).take i).reverse.find? (fun e => e.tag == "pb")
          = none := by
        rw [List.find?_eq_none]
        intro e he
        rw [List.mem_reverse] at he
        simp [hnone e (List.take_subset _ _ he)]
      simp [folio_for, hidx, hfind]

theorem folio_resolution_pb_and_seed_witness :
    folio_for (docNodesOf frag3) frag3L "S" = "12"
    ∧ folio_for (docNodesOf frag2) frag2L "T" = "T" :=
  ⟨folio_resolution_pb_and_seed.1 frag3 "S" 1 2 frag3Pb frag3L rfl rfl rfl
      (by decide) rfl (by omega),
   folio_resolution_pb_and_seed.2 frag2 "T" frag2L (by decide)⟩

/-- C4 counterexample: the claim says a line whose nearest preceding `pb`
carries neither an `n` nor an identifier attribute resolves to the empty
folio, independent of the seed; on the fragment `<div><pb/><l>x</l></div>`
with seed folio `"X"` the code resolves the line's folio to the seed `"X"`,
not `""` (the scan ends in `… or initial_folio`). -/
theorem folio_attrless_pb_counterexample :
    (extract_lines_from_xml frag4 "X" "").map (fun r => r.folio) = ["X"]
    ∧ (extract_lines_from_xml frag4 "X" "").map (fun r => r.folio) ≠ [""] :=
  ⟨rfl, by decide⟩

/-- C4 amended: a line whose nearest preceding page-break carries neither a
truthy `n` attribute nor a truthy identifier attribute resolves to the
*seed* folio supplied by the caller (the scan computes
`n or xml_id or initial_folio`, so the caller's seed is the final
fallback, not the empty string). -/
theorem folio_attrless_pb_seed_fallback :
    ∀ (root : Elem) (seed : String) (j i : Nat) (pb l : Elem),
      (docNodesOf root)[j]? = some pb → pb.tag = "pb" →
      attrD pb "n" = "" → attrD pb "xml:id" = "" →
      (∀ e ∈ ((docNodesOf root).take i).drop (j + 1), e.tag ≠ "pb") →
      idxOfEid (docNodesOf root) l.eid = some i → j < i →
      folio_for (docNodesOf root) l seed = seed := by
  intro root seed j i pb l hj hpb hn hid hafter hidx hji
  have hfind : ((docNodesOf root).take i).reverse.find? (fun e => e.tag == "pb")
      = some pb := by
    apply find?_reverse_take _ _ i j pb hji hj (by simp [hpb])
    intro e he
    simp [hafter e he]
  simp [folio_for, hidx, hfind, pyOr, hn, hid]

theorem folio_attrless_pb_seed_fallback_witness :
    folio_for (docNodesOf frag4) frag4L "X" = "X" :=
  folio_attrless_pb_seed_fallback frag4 "X" 1 2 frag4Pb frag4L rfl rfl rfl rfl
    (by decide) rfl (by omega)

/-- C7: the speaker field of every record is resolved by scanning the
node-order index strictly backward from the line for the first `sp`-tagged
element, taking its `who` attribute (with `""` when the attribute is
absent) and stripping one leading `#`; it is the empty string when no `sp`
precedes the line (or the line is outside the indexed subtree). -/
theorem speaker_resolution_backward_scan :
    ∀ (root : Elem) (f c : String) (i : Nat) (r : LineRec) (l : Elem),
      (extract_lines_from_xml root f c)[i]? = some r →
      (linesOf root)[i]? = some l →
      (∀ p : Nat, idxOfEid (docNodesOf root) l.eid = some p →
        (∀ (j : Nat) (sp : Elem), (docNodesOf root)[j]? = some sp → j < p →
            sp.tag = "sp" →
            (∀ e ∈ ((docNodesOf root).take p).drop (j + 1), e.tag ≠ "sp") →
            r.speaker = stripRefSigil (attrD sp "who"))
        ∧ ((∀ e ∈ (docNodesOf root).take p, e.tag ≠ "sp") → r.speaker = ""))
      ∧ (idxOfEid (docNodesOf root) l.eid = none → r.speaker = "") := by
  intro root f c i r l hr hl
  have hrec := extract_loop_getElem? (docNodesOf root) (ancTable root) f c
    (linesOf root) 0 [] i l hl
  have hspk : r.speaker = speaker_for (docNodesOf root) l := by
    rw [Option.some_inj.mp (hr.symm.trans hrec)]
  constructor
  · intro p hp
    constructor
    · intro j sp hj hjp hsp hafter
      have hfind : ((docNodesOf root).take p).reverse.find? (fun e => e.tag == "sp")
          = some sp := by
        apply find?_reverse_take _ _ p j sp hjp hj (by simp [hsp])
        intro e he
        simp [hafter e he]
      rw [hspk]
      simp [speaker_for, hp, hfind]
    · intro hnone
      have hfind : ((docNodesOf root).take p).reverse.find? (fun e => e.tag == "sp")
          = none := by
        rw [List.find?_eq_none]
        intro e he
        rw [List.mem_reverse] at he
        simp [hnone e he]
      rw [hspk]
      simp [speaker_for, hp, hfind]
  · intro hnone
    rw [hspk]
    simp [speaker_for, hnone]

theorem speaker_resolution_backward_scan_witness :
    ({ line_no := 1, text := "x", lg := "1", l_id := "",
       folio := "", col := "", speaker := "A" } : LineRec).speaker
      = stripRefSigil (attrD frag5Sp "who") :=
  ((speaker_resolution_backward_scan frag5 "" "" 0 _ frag5L rfl rfl).1 2 rfl).1
    1 frag5Sp rfl (by omega) rfl (by decide)

/-- The first-discovery fold: append each id the first time it is seen. -/
def firstSeenFrom (acc gs : List Nat) : List Nat :=
  gs.foldl (fun a g => if g ∈ a then a else a ++ [g]) acc

/-- Distinct ids of a sequence, in first-discovery order. -/
def firstSeen (gs : List Nat) : List Nat := firstSeenFrom [] gs

/-- The grouping-ancestor ids of a list of lines, in document order
(lines without a grouping ancestor contribute nothing). -/
def gseqOf (table : List (Elem × List Elem)) (ls : List Elem) : List Nat :=
  ls.filterMap (fun l => (find_group_for_node table l).map Elem.eid)

/-- The grouping-ancestor ids of the fragment's lines, in document order. -/
def groupSeq (root : Elem) : List Nat := gseqOf (ancTable root) (linesOf root)

theorem posIn?_eq_none_iff (gs : List Nat) (x : Nat) : posIn? gs x = none ↔ x ∉ gs := by
  induction gs with
  | nil => simp [posIn?]
  | cons g gs ih =>
    by_cases h : g = x
    · subst h
      simp [posIn?]
    · rw [posIn?, if_neg h]
      simp only [Option.map_eq_none', ih, List.mem_cons]
      constructor
      · intro hx hc
        rcases hc with hc | hc
        · exact h hc.symm
        · exact hx hc
      · intro hx
        exact fun hc => hx (Or.inr hc)

theorem posIn?_of_mem (gs : List Nat) (x : Nat) (h : x ∈ gs) :
    posIn? gs x = some (posIn gs x) := by
  induction gs with
  | nil => simp at h
  | cons g gs ih =>
    by_cases hg : g = x
    · subst hg
      simp [posIn?, posIn]
    · have hx : x ∈ gs := by
        rcases List.mem_cons.mp h with h1 | h1
        · exact absurd h1.symm hg
        · exact h1
      simp [posIn?, posIn, hg, ih hx]

theorem discAfter_eq_firstSeen (table : List (Elem × List Elem)) :
    ∀ (ls : List Elem) (d : List Nat),
      discAfter table d ls = firstSeenFrom d (gseqOf table ls) := by
  intro ls
  induction ls with
  | nil => intro d; rfl
  | cons hd tl ih =>
    intro d
    cases hg : find_group_for_node table hd with
    | none =>
      have h2 : (lg_step table d hd).2 = d := by simp [lg_step, hg]
      have h3 : gseqOf table (hd :: tl) = gseqOf table tl := by
        simp [gseqOf, List.filterMap_cons, hg]
      calc discAfter table d (hd :: tl)
          = discAfter table ((lg_step table d hd).2) tl := rfl
        _ = discAfter table d tl := by rw [h2]
        _ = firstSeenFrom d (gseqOf table tl) := ih d
        _ = firstSeenFrom d (gseqOf table (hd :: tl)) := by rw [h3]
    | some a =>
      have h2 : (lg_step table d hd).2 = if a.eid ∈ d then d else d ++ [a.eid] := by
        by_cases hm : a.eid ∈ d
        · simp [lg_step, hg, posIn?_of_mem d a.eid hm, hm]
        · simp [lg_step, hg, (posIn?_eq_none_iff d a.eid).mpr hm, hm]
      have h3 : gseqOf table (hd :: tl) = a.eid :: gseqOf table tl := by
        simp [gseqOf, List.filterMap_cons, hg]
      calc discAfter table d (hd :: tl)
          = discAfter table ((lg_step table d hd).2) tl := rfl
        _ = firstSeenFrom ((lg_step table d hd).2) (gseqOf table tl) := ih _
        _ = firstSeenFrom d (gseqOf table (hd :: tl)) := by rw [h3, h2]; rfl

theorem firstSeenFrom_suffix : ∀ (gs d : List Nat), ∃ zs, firstSeenFrom d gs = d ++ zs := by
  intro gs
  induction gs with
  | nil => intro d; exact ⟨[], by simp [firstSeenFrom]⟩
  | cons g gs ih =>
    intro d
    by_cases hm : g ∈ d
    · obtain ⟨zs, hz⟩ := ih d
      refine ⟨zs, ?_⟩
      have hstep : firstSeenFrom d (g :: gs) = firstSeenFrom d gs := by
        show firstSeenFrom (if g ∈ d then d else d ++ [g]) gs = _
        rw [if_pos hm]
      rw [hstep, hz]
    · obtain ⟨zs, hz⟩ := ih (d ++ [g])
      refine ⟨g :: zs, ?_⟩
      have hstep : firstSeenFrom d (g :: gs) = firstSeenFrom (d ++ [g]) gs := by
        show firstSeenFrom (if g ∈ d then d else d ++ [g]) gs = _
        rw [if_neg hm]
      rw [hstep, hz]
      simp

theorem posIn_append_of_mem : ∀ (d zs : List Nat) (x : Nat), x ∈ d →
    posIn (d ++ zs) x = posIn d x := by
  intro d
  induction d with
  | nil => intro zs x h; simp at h
  | cons g gs ih =>
    intro zs x h
    by_cases hg : g = x
    · simp [posIn, hg]
    · have hx : x ∈ gs := by
        rcases List.mem_cons.mp h with h1 | h1
        · exact absurd h1.symm hg
        · exact h1
      simp [posIn, hg, ih zs x hx]

theorem posIn_append_self : ∀ (d zs : List Nat) (x : Nat), x ∉ d →
    posIn (d ++ x :: zs) x = d.length := by
  intro d
  induction d with
  | nil => intro zs x h; simp [posIn]
  | cons g gs ih =>
    intro zs x h
    have hg : ¬ g = x := fun he => h (by simp [he])
    have hx : x ∉ gs := fun hm => h (by simp [hm])
    simp [posIn, hg, ih zs x hx]

/-- C5: group identifiers are assigned in first-discovery order across the
whole fragment: a record's group id is the 1-based position of its line's
grouping ancestor in the list of distinct grouping ancestors, ordered by
first discovery over all lines in document order; a line with no grouping
ancestor gets the empty string, and no record ever carries the digit
zero. -/
theorem group_ids_first_discovery (root : Elem) (f c : String) (i : Nat)
    (r : LineRec) (l : Elem)
    (hr : (extract_lines_from_xml root f c)[i]? = some r)
    (hl : (linesOf root)[i]? = some l) :
    r.lg = (match find_group_for_node (ancTable root) l with
            | none => ""
            | some a => toString (posIn (firstSeen (groupSeq root)) a.eid + 1))
    ∧ r.lg ≠ "0" := by
  have hrec := extract_loop_getElem? (docNodesOf root) (ancTable root) f c
    (linesOf root) 0 [] i l hl
  have hlg : r.lg = (lg_step (ancTable root)
      (discAfter (ancTable root) [] ((linesOf root).take i)) l).1 := by
    rw [Option.some_inj.mp (hr.symm.trans hrec)]
  obtain ⟨hi, hget⟩ := List.getElem?_eq_some.mp hl
  have hdrop : (linesOf root).drop i = l :: (linesOf root).drop (i + 1) := by
    rw [List.drop_eq_getElem_cons hi, hget]
  have hsplit : linesOf root
      = (linesOf root).take i ++ l :: (linesOf root).drop (i + 1) := by
    conv_lhs => rw [← List.take_append_drop i (linesOf root)]
    rw [hdrop]
  cases hg : find_group_for_node (ancTable root) l with
  | none =>
    have h0 : r.lg = "" := by rw [hlg]; simp [lg_step, hg]
    rw [h0]
    exact ⟨rfl, by decide⟩
  | some a =>
    have hDifs : discAfter (ancTable root) [] ((linesOf root).take i)
        = firstSeenFrom [] (gseqOf (ancTable root) ((linesOf root).take i)) :=
      discAfter_eq_firstSeen (ancTable root) _ []
    have hgs : groupSeq root = gseqOf (ancTable root) ((linesOf root).take i)
        ++ a.eid :: gseqOf (ancTable root) ((linesOf root).drop (i + 1)) := by
      show gseqOf (ancTable root) (linesOf root) = _
      conv_lhs => rw [hsplit]
      simp [gseqOf, List.filterMap_append, List.filterMap_cons, hg]
    have hfull : firstSeen (groupSeq root)
        = firstSeenFrom
            (firstSeenFrom (discAfter (ancTable root) [] ((linesOf root).take i)) [a.eid])
            (gseqOf (ancTable root) ((linesOf root).drop (i + 1))) := by
      rw [firstSeen, hgs, hDifs]
      simp [firstSeenFrom, List.foldl_append]
    by_cases hm : a.eid ∈ discAfter (ancTable root) [] ((linesOf root).take i)
    · have hstep1 : firstSeenFrom (discAfter (ancTable root) [] ((linesOf root).take i)) [a.eid]
          = discAfter (ancTable root) [] ((linesOf root).take i) := by
        show (if a.eid ∈ discAfter (ancTable root) [] ((linesOf root).take i) then _ else _) = _
        rw [if_pos hm]
      obtain ⟨zs, hz⟩ := firstSeenFrom_suffix
        (gseqOf (ancTable root) ((linesOf root).drop (i + 1)))
        (discAfter (ancTable root) [] ((linesOf root).take i))
      have hpos : posIn (firstSeen (groupSeq root)) a.eid
          = posIn (discAfter (ancTable root) [] ((linesOf root).take i)) a.eid := by
        rw [hfull, hstep1, hz]
        exact posIn_append_of_mem _ zs a.eid hm
      have hlg2 : r.lg = toString
          (posIn (discAfter (ancTable root) [] ((linesOf root).take i)) a.eid + 1) := by
        rw [hlg]
        simp [lg_step, hg, posIn?_of_mem _ a.eid hm]
      constructor
      · show r.lg = toString (posIn (firstSeen (groupSeq root)) a.eid + 1)
        rw [hlg2, hpos]
      · rw [hlg2]
        exact toString_succ_ne_zero _
    · have hstep1 : firstSeenFrom (discAfter (ancTable root) [] ((linesOf root).take i)) [a.eid]
          = discAfter (ancTable root) [] ((linesOf root).take i) ++ [a.eid] := by
        show (if a.eid ∈ discAfter (ancTable root) [] ((linesOf root).take i) then _ else _) = _
        rw [if_neg hm]
      obtain ⟨zs, hz⟩ := firstSeenFrom_suffix
        (gseqOf (ancTable root) ((linesOf root).drop (i + 1)))
        (discAfter (ancTable root) [] ((linesOf root).take i) ++ [a.eid])
      have hpos : posIn (firstSeen (groupSeq root)) a.eid
          = (discAfter (ancTable root) [] ((linesOf root).take i)).length := by
        rw [hfull, hstep1, hz, List.append_assoc]
        exact posIn_append_self _ zs a.eid hm
      have hlg2 : r.lg = toString
          ((discAfter (ancTable root) [] ((linesOf root).take i)).length + 1) := by
        rw [hlg]
        simp [lg_step, hg, (posIn?_eq_none_iff _ a.eid).mpr hm]
      constructor
      · show r.lg = toString (posIn (firstSeen (groupSeq root)) a.eid + 1)
        rw [hlg2, hpos]
      · rw [hlg2]
        exact toString_succ_ne_zero _

theorem group_ids_first_discovery_witness :
    ({ line_no := 1, text := "Foo", lg := "1", l_id := "l1",
       folio := "1r", col := "", speaker := "" } : LineRec).lg
      = (match find_group_for_node (ancTable frag1) fragL1 with
         | none => ""
         | some a => toString (posIn (firstSeen (groupSeq frag1)) a.eid + 1))
    ∧ ({ line_no := 1, text := "Foo", lg := "1", l_id := "l1",
         folio := "1r", col := "", speaker := "" } : LineRec).lg ≠ "0" :=
  group_ids_first_discovery frag1 "" "" 0 _ fragL1 rfl rfl

theorem dinsert_keys {α : Type} (m : List (String × α)) (k' : String) (v : α)
    (k : String) :
    (k ∈ (dinsert m k' v).map Prod.fst) ↔ k = k' ∨ k ∈ m.map Prod.fst := by
  unfold dinsert
  by_cases h : m.any (fun p => p.1 == k')
  · have hk : k' ∈ m.map Prod.fst := by
      obtain ⟨p, hp, hb⟩ := List.any_eq_true.mp h
      exact (beq_iff_eq.mp hb) ▸ List.mem_map_of_mem Prod.fst hp
    have hmap : (m.map (fun p => if p.1 == k' then (k', v) else p)).map Prod.fst
        = m.map Prod.fst := by
      rw [List.map_map]
      apply List.map_congr_left
      intro p hp
      by_cases hb : p.1 == k'
      · simp only [Function.comp_apply, hb, if_pos]
        exact (beq_iff_eq.mp hb).symm
      · have hne : p.1 ≠ k' := by simpa using hb
        simp [Function.comp_apply, hb, hne]
    rw [if_pos h, hmap]
    constructor
    · exact Or.inr
    · intro h2
      rcases h2 with h2 | h2
      · exact h2 ▸ hk
      · exact h2
  · rw [if_neg h, List.map_append]
    simp [List.mem_append, or_comm]

theorem load_fold_keys (k : String) :
    ∀ (rows : List (List (String × String))) (m0 : List (String × List (String × String))),
      (k ∈ (rows.foldl md_step m0).map Prod.fst)
        ↔ k ∈ m0.map Prod.fst ∨ k ∈ nonemptyIds rows := by
  intro rows
  induction rows with
  | nil => intro m0; simp [nonemptyIds]
  | cons row rows ih =>
    intro m0
    have hstep : List.foldl md_step m0 (row :: rows) = List.foldl md_step (md_step m0 row) rows := rfl
    rw [hstep, ih]
    by_cases hid : pyStrip (lookupD row "id" "") = ""
    · have h1 : md_step m0 row = m0 := by simp [md_step, hid]
      have h2 : nonemptyIds (row :: rows) = nonemptyIds rows := by
        simp [nonemptyIds, List.filterMap_cons, hid]
      rw [h1, h2]
    · have h1 : md_step m0 row = dinsert m0 (pyStrip (lookupD row "id" ""))
          (dinsert row "state" (pyLower (pyStrip (lookupD row "state" "incomplete")))) := by
        simp [md_step, hid]
      have h2 : nonemptyIds (row :: rows)
          = pyStrip (lookupD row "id" "") :: nonemptyIds rows := by
        simp [nonemptyIds, List.filterMap_cons, hid]
      rw [h1, h2, dinsert_keys]
      simp only [List.mem_cons]
      tauto

/-- C9: when the stripped header contains the `id` column, loading the
metadata table yields a mapping whose keys are exactly the stripped,
non-empty identifiers of the rows — rows with an empty identifier are
skipped (with a warning) and appear nowhere, rows with a non-empty
identifier always appear; when the `id` column is absent the load is
fatal (`sys.exit(1)`, modelled as `Except.error`), which happens before
any section is processed. -/
theorem load_metadata_row_filtering :
    (∀ (fieldnames : List String) (rows : List (List (String × String))),
        (fieldnames.map pyStrip).contains "id" = false →
        load_metadata fieldnames rows = Except.error ())
    ∧ (∀ (fieldnames : List String) (rows : List (List (String × String))),
        (fieldnames.map pyStrip).contains "id" = true →
        ∀ k, k ∈ mdKeys (load_metadata fieldnames rows) ↔ k ∈ nonemptyIds rows) := by
  constructor
  · intro fns rows h
    simp only [load_metadata, h]
    rfl
  · intro fns rows h k
    have hload : load_metadata fns rows = Except.ok (rows.foldl md_step []) := by
      simp only [load_metadata, h]
      rfl
    rw [hload]
    show k ∈ (rows.foldl md_step []).map Prod.fst ↔ k ∈ nonemptyIds rows
    rw [load_fold_keys k rows []]
    simp

theorem load_metadata_row_filtering_witness :
    load_metadata ["name"] [] = Except.error ()
    ∧ ("a" ∈ mdKeys (load_metadata ["id", "state"]
          [[("id", " a "), ("state", "Complete")], [("id", "  ")]])) :=
  ⟨load_metadata_row_filtering.1 ["name"] [] rfl,
   (load_metadata_row_filtering.2 ["id", "state"]
      [[("id", " a "), ("state", "Complete")], [("id", "  ")]] rfl "a").mpr
     (by decide)⟩

theorem band_left {a b : Bool} (h : (a && b) = true) : a = true := by
  cases a with
  | true => rfl
  | false => simp at h

theorem band_right {a b : Bool} (h : (a && b) = true) : b = true := by
  cases b with
  | true => rfl
  | false => simp at h

theorem indFirst_cons (p : Elem → Bool) (e : Elem) (l : List Elem) :
    indFirst p (e :: l)
      = if p e && !(effAttr e == "") then effAttr e else indFirst p l := by
  by_cases h : (p e && !(effAttr e == "")) = true
  · simp [indFirst, List.find?_cons_of_pos _ h, h]
  · simp [indFirst, List.find?_cons_of_neg _ h, h]

theorem eff_ne_of_band {q : Bool} {e : Elem}
    (h : (q && !(effAttr e == "")) = true) : effAttr e ≠ "" := by
  have h2 := band_right h
  simpa using h2

theorem jf_ne (e : Elem) (f : String) (h : f ≠ "") : jf e f = f := by
  have hb : (f == "") = false := beq_eq_false_iff_ne.mpr h
  simp [jf, hb]

theorem jf_hit (e : Elem) (h : (isTeiPb e && !(effAttr e == "")) = true) :
    jf e "" = effAttr e := by
  have hpb := band_left h
  simp [jf, hpb]

theorem jf_miss (e : Elem) (h : (isTeiPb e && !(effAttr e == "")) = false) :
    jf e "" = "" := by
  cases hpb : isTeiPb e with
  | false => simp [jf, hpb]
  | true =>
    have heff : (effAttr e == "") = true := by
      cases hq : (effAttr e == "") with
      | true => rfl
      | false => rw [hpb, hq] at h; simp at h
    simp [jf, hpb]
    exact beq_iff_eq.mp heff

theorem jc_ne (e : Elem) (c : String) (h : c ≠ "") : jc e c = c := by
  have hb : (c == "") = false := beq_eq_false_iff_ne.mpr h
  simp [jc, hb]

theorem jc_empty (e : Elem) :
    jc e "" = if isTeiColMarker e then effAttr e else "" := by
  cases hcb : (e.ns == TEIuri && e.tag == "cb") with
  | true => simp [jc, isTeiColMarker, hcb]
  | false =>
    cases hmil : (e.ns == TEIuri && e.tag == "milestone" && attrD e "unit" == "column") with
    | true => simp [jc, isTeiColMarker, hcb, hmil]
    | false => simp [jc, isTeiColMarker, hcb, hmil]

theorem jc_hit (e : Elem) (h : (isTeiColMarker e && !(effAttr e == "")) = true) :
    jc e "" = effAttr e := by
  rw [jc_empty]
  simp [band_left h]

theorem jc_miss (e : Elem) (h : (isTeiColMarker e && !(effAttr e == "")) = false) :
    jc e "" = "" := by
  rw [jc_empty]
  cases hm : isTeiColMarker e with
  | false => simp
  | true =>
    have heff : (effAttr e == "") = true := by
      cases hq : (effAttr e == "") with
      | true => rfl
      | false => rw [hm, hq] at h; simp at h
    simp [beq_iff_eq.mp heff]

/-- The joint scan computes, in each component, the value of the first
preceding marker of its kind with a truthy resolved value (markers whose
resolved value is empty are passed over), with the running value winning
once it is truthy. -/
theorem joint_scan_eq : ∀ (l : List Elem) (f c : String),
    joint_scan l f c
      = ((if f = "" then indFirst isTeiPb l else f),
         (if c = "" then indFirst isTeiColMarker l else c)) := by
  intro l
  induction l with
  | nil =>
    intro f c
    by_cases hf : f = "" <;> by_cases hc : c = "" <;> simp [joint_scan, indFirst, hf, hc]
  | cons e rest ih =>
    intro f c
    rw [joint_scan, ih (jf e f) (jc e c), indFirst_cons, indFirst_cons]
    split
    · next hbreak =>
      have h1 : jf e f ≠ "" := by
        have := band_left hbreak
        simpa using this
      have h2 : jc e c ≠ "" := by
        have := band_right hbreak
        simpa using this
      simp only [Prod.mk.injEq]
      constructor
      · by_cases hf : f = ""
        · subst hf
          cases hbp : (isTeiPb e && !(effAttr e == "")) with
          | true =>
            rw [jf_hit e hbp]
            simp [hbp]
          | false =>
            rw [jf_miss e hbp] at h1
            exact absurd rfl h1
        · rw [jf_ne e f hf]
          simp [hf]
      · by_cases hc : c = ""
        · subst hc
          cases hbc : (isTeiColMarker e && !(effAttr e == "")) with
          | true =>
            rw [jc_hit e hbc]
            simp [hbc]
          | false =>
            rw [jc_miss e hbc] at h2
            exact absurd rfl h2
        · rw [jc_ne e c hc]
          simp [hc]
    · next hbreak =>
      simp only [Prod.mk.injEq]
      constructor
      · by_cases hf : f = ""
        · subst hf
          cases hbp : (isTeiPb e && !(effAttr e == "")) with
          | true =>
            rw [jf_hit e hbp]
            simp [hbp, eff_ne_of_band hbp]
          | false =>
            rw [jf_miss e hbp]
            simp [hbp]
        · rw [jf_ne e f hf]
          simp [hf]
      · by_cases hc : c = ""
        · subst hc
          cases hbc : (isTeiColMarker e && !(effAttr e == "")) with
          | true =>
            rw [jc_hit e hbc]
            simp [hbc, eff_ne_of_band hbc]
          | false =>
            rw [jc_miss e hbc]
            simp [hbc]
        · rw [jc_ne e c hc]
          simp [hc]

/-- C10 counterexample: on a source document whose target div is preceded
by an attribute-less `pb` (nearest) and a `pb n="5"` further back, the
joint scan passes over the empty-valued `pb` and returns folio `"5"`,
while two independent scans each stopping at their own first match return
folio `""` — so the joint scan is *not* equivalent to plain first-match
independent scans. -/
theorem joint_scan_counterexample :
    get_folio_and_col_at_div "d1" cex10 ≠ two_independent_scans "d1" cex10
    ∧ get_folio_and_col_at_div "d1" cex10 = ("5", "")
    ∧ two_independent_scans "d1" cex10 = ("", "") :=
  ⟨by decide, rfl, rfl⟩

/-- C10 amended: for every source document and target section, the joint
backward scan returns the same (folio, column) pair as two independent
backward scans, each stopping at its own first marker whose resolved value
is non-empty (markers with empty `n`/identifier are passed over; the
component stays empty when no such marker exists). -/
theorem joint_scan_refines_nonempty_scans (div_id : String) (root : Elem) :
    get_folio_and_col_at_div div_id root = independent_nonempty_scans div_id root := by
  unfold get_folio_and_col_at_div independent_nonempty_scans
  cases h : idxWhere (Elem.nodes root)
      (fun e => e.ns == TEIuri && e.tag == "div" && getAttr e "xml:id" == some div_id) with
  | none => rfl
  | some i =>
    show joint_scan ((root.nodes.take i).reverse) "" ""
        = (indFirst isTeiPb ((root.nodes.take i).reverse),
           indFirst isTeiColMarker ((root.nodes.take i).reverse))
    rw [joint_scan_eq]
    simp
